import Mathlib

/-!
Verification of the transcript-processing core of the VoiceGenius recorder
(`VoiceRecorder.jsx` and the Gemini extraction client).  The JavaScript
functions are shallowly embedded as executable Lean definitions over
`List Char` / `String`; JavaScript regular expressions are embedded as
hand-written deterministic matchers that follow the backtracking semantics
of the concrete patterns appearing in the source.  The floating-point
comparison `matchingWords / newWords.length > 0.8` is modelled exactly over
the naturals as `4 * length < 5 * matching`.
-/

/-- Model of the JavaScript `\s` class / `split(/\s+/)` separator test. -/
def isWsC (c : Char) : Bool := c.isWhitespace

/-- JavaScript `\d`. -/
def isDigitC (c : Char) : Bool := c.isDigit

/-- JavaScript `[A-Z]`. -/
def isUpperA (c : Char) : Bool := 'A' ≤ c && c ≤ 'Z'

/-- JavaScript `[a-z]`. -/
def isLowerA (c : Char) : Bool := 'a' ≤ c && c ≤ 'z'

/-- JavaScript `[a-z]` under the `i` flag: any ASCII letter. -/
def isLetterA (c : Char) : Bool := isUpperA c || isLowerA c

/-- JavaScript `\w` (word character) used by the `\b` boundary assertion. -/
def isWordC (c : Char) : Bool := isLetterA c || isDigitC c || c = '_'

/-- JavaScript `.` (without the `s` flag): any character except the four
line terminators. -/
def isDotC (c : Char) : Bool :=
  !(c = '\n' || c = '\r' || c = Char.ofNat 0x2028 || c = Char.ofNat 0x2029)

/-- JavaScript `toLowerCase()` (ASCII range, which covers every character the
embedded patterns compare). -/
def lowerStr (s : String) : String := String.mk (s.data.map Char.toLower)

/-- JavaScript `trim()`. -/
def trimStr (s : String) : String :=
  String.mk (((s.data.dropWhile isWsC).reverse.dropWhile isWsC).reverse)

/-- Splitter behind `text.split(/\s+/).filter(w => w.trim())`: accumulates the
current word reversed in `cur` and emits maximal non-whitespace runs. -/
def wordsAux : List Char → List Char → List (List Char)
  | [], cur => if cur.isEmpty then [] else [cur.reverse]
  | c :: rest, cur =>
    if isWsC c then
      if cur.isEmpty then wordsAux rest [] else cur.reverse :: wordsAux rest []
    else wordsAux rest (c :: cur)

/-- The whitespace-separated tokens of a string (nonempty maximal runs of
non-whitespace characters), as produced by `split(/\s+/)` plus the
empty-string filter in `removeRepeatedPhrases`. -/
def tokens (s : String) : List String := (wordsAux s.data []).map String.mk

/-- JavaScript `array.join(' ')`. -/
def joinSp : List String → String
  | [] => ""
  | [w] => w
  | w :: x :: xs => w ++ " " ++ joinSp (x :: xs)

/-- Character-level counterpart of `joinSp`, used to relate joining and
re-tokenising. -/
def joinChars : List (List Char) → List Char
  | [] => []
  | [w] => w
  | w :: x :: xs => w ++ ' ' :: joinChars (x :: xs)

/-- `words.slice(i, i + len).join(' ').toLowerCase()` where the slice is taken
from the suffix of the word list starting at position `i`. -/
def phraseOf (suffix : List String) (len : Nat) : String :=
  lowerStr (joinSp (suffix.take len))

/-- The inner loop of `removeRepeatedPhrases`: for the pattern lengths in
`lens` (3 to 7 in the source), in order and while the window fits in the
remaining words, test the lower-cased phrase against the seen set; a hit
marks the position as repeated, a miss adds the phrase to the seen set. -/
def scanLens : List String → List Nat → List String → Bool × List String
  | _, [], seen => (false, seen)
  | suffix, len :: rest, seen =>
    if len ≤ suffix.length then
      if phraseOf suffix len ∈ seen then (true, seen)
      else scanLens suffix rest (phraseOf suffix len :: seen)
    else (false, seen)

/-- The outer loop of `removeRepeatedPhrases`: words at positions marked as
starting a repeated pattern are suppressed, all others are kept. -/
def dedupeGo : List String → List String → List String
  | [], _ => []
  | w :: rest, seen =>
    if (scanLens (w :: rest) [3, 4, 5, 6, 7] seen).1 then
      dedupeGo rest (scanLens (w :: rest) [3, 4, 5, 6, 7] seen).2
    else w :: dedupeGo rest (scanLens (w :: rest) [3, 4, 5, 6, 7] seen).2

/-- `removeRepeatedPhrases` from `VoiceRecorder.jsx`: inputs of fewer than 5
tokens are returned unchanged (this also covers the `if (!text) return ''`
guard), otherwise the surviving words are joined with single spaces. -/
def removeRepeatedPhrases (text : String) : String :=
  let ws := tokens text
  if ws.length < 5 then text else joinSp (dedupeGo ws [])

/-- No lower-cased phrase of 3 to 7 consecutive tokens occurs at two distinct
windows of the word list (the "already deduplicated" hypothesis of the
idempotence property). -/
def PhrasesDistinct (words : List String) : Prop :=
  ∀ i < words.length, ∀ j < words.length, ∀ len < 8, ∀ lenB < 8,
    3 ≤ len → i + len ≤ words.length → 3 ≤ lenB → j + lenB ≤ words.length →
    (i ≠ j ∨ len ≠ lenB) →
    phraseOf (words.drop i) len ≠ phraseOf (words.drop j) lenB

/-- Executable check for `PhrasesDistinct`, used to discharge the hypothesis
of the idempotence theorem on concrete inputs. -/
def phrasesDistinctB (words : List String) : Bool :=
  (List.range words.length).all fun i =>
    (List.range words.length).all fun j =>
      (List.range 8).all fun len =>
        (List.range 8).all fun lenB =>
          decide (3 ≤ len → i + len ≤ words.length → 3 ≤ lenB →
            j + lenB ≤ words.length → (i ≠ j ∨ len ≠ lenB) →
            phraseOf (words.drop i) len ≠ phraseOf (words.drop j) lenB)

/-! ### Regular-expression matchers

Each JavaScript regex used by `VoiceRecorder.jsx` is embedded as a
deterministic matcher over `List Char`.  `prev` carries the character
immediately before the current position so that `\b` can be decided; a
leading `\b` before a word character holds exactly when the previous
character is absent or a non-word character, a trailing `\b` after a word
character holds exactly when the next character is absent or non-word. -/

/-- Leading word-boundary test (the next pattern character is a word
character at every use site). -/
def leftB : Option Char → Bool
  | none => true
  | some c => !isWordC c

/-- Trailing word-boundary test (the previous pattern character is a word
character at every use site). -/
def rightB : List Char → Bool
  | [] => true
  | c :: _ => !isWordC c

/-- Match a literal case-insensitively at the head of the input, returning
the remaining input. -/
def dropLitCI : List Char → List Char → Option (List Char)
  | [], cs => some cs
  | _ :: _, [] => none
  | l :: ls, c :: cs => if Char.toLower c = Char.toLower l then dropLitCI ls cs else none

/-- Match a literal case-sensitively at the head of the input. -/
def dropLitCS : List Char → List Char → Option (List Char)
  | [], cs => some cs
  | _ :: _, [] => none
  | l :: ls, c :: cs => if c = l then dropLitCS ls cs else none

/-- First alternative of `lits` that matches case-insensitively at the head
of the input; returns the original-case slice that was consumed and the
rest.  The alternations in the source have pairwise-distinct prefixes, so
taking the first textual match is faithful to backtracking. -/
def firstLitCI : List String → List Char → Option (String × List Char)
  | [], _ => none
  | l :: ls, cs =>
    match dropLitCI l.data cs with
    | some r => some (String.mk (cs.take l.data.length), r)
    | none => firstLitCI ls cs

/-- Scan for the first position where `step` matches (JavaScript
`String.prototype.match` without the `g` flag). -/
def scanFind (step : Option Char → List Char → Option α) : Option Char → List Char → Option α
  | prev, [] => step prev []
  | prev, c :: rest =>
    match step prev (c :: rest) with
    | some a => some a
    | none => scanFind step (some c) rest

/-- Fueled global scan: after each match, scanning resumes at the match end
(JavaScript `match` with the `g` flag; every pattern used consumes at least
one character per match, so `length + 1` fuel always suffices). -/
def scanAllF (step : Option Char → List Char → Option (α × Option Char × List Char)) :
    Nat → Option Char → List Char → List α
  | 0, _, _ => []
  | Nat.succ fuel, prev, cs =>
    match step prev cs with
    | some (a, p, r) => a :: scanAllF step fuel p r
    | none =>
      match cs with
      | [] => []
      | c :: rest => scanAllF step fuel (some c) rest

/-- All matches of `step`, left to right (the `g` flag). -/
def scanAll (step : Option Char → List Char → Option (α × Option Char × List Char))
    (s : String) : List α :=
  scanAllF step (s.data.length + 1) none s.data

/-- `/\btomorrow\b/i` at one position. -/
def tomorrowStep (prev : Option Char) (cs : List Char) : Option Unit :=
  if leftB prev then
    match dropLitCI ("tomorrow".data) cs with
    | some r => if rightB r then some () else none
    | none => none
  else none

/-- `text.match(/\btomorrow\b/i)` as a Boolean. -/
def tomorrowFound (s : String) : Bool := (scanFind tomorrowStep none s.data).isSome

/-- `/\btoday\b/i` at one position. -/
def todayStep (prev : Option Char) (cs : List Char) : Option Unit :=
  if leftB prev then
    match dropLitCI ("today".data) cs with
    | some r => if rightB r then some () else none
    | none => none
  else none

/-- `text.match(/\btoday\b/i)` as a Boolean. -/
def todayFound (s : String) : Bool := (scanFind todayStep none s.data).isSome

/-- The weekday alternation of the source, in source order. -/
def dayNames : List String :=
  ["monday", "tuesday", "wednesday", "thursday", "friday", "saturday", "sunday"]

/-- `/\b(monday|...|sunday)\b/i` at one position, returning the matched
slice in its original case. -/
def dayStep (prev : Option Char) (cs : List Char) : Option String :=
  if leftB prev then
    match firstLitCI dayNames cs with
    | some (m, r) => if rightB r then some m else none
    | none => none
  else none

/-- First weekday match of the text (`dayMatch[1]`). -/
def findDay (s : String) : Option String := scanFind dayStep none s.data

/-- `day.charAt(0).toUpperCase() + day.slice(1)`. -/
def capitalizeFirst (s : String) : String :=
  match s.data with
  | [] => ""
  | c :: r => String.mk (Char.toUpper c :: r)

/-- `/\b(\d{1,2}(?::\d{2})?\s*(?:am|pm))\b/i` at one position, returning the
captured group (equal to the whole match).  The greedy pieces need no
backtracking: a digit can follow neither `:`, whitespace nor `am`/`pm`, and
whitespace cannot begin `am`/`pm`. -/
def timeStep (prev : Option Char) (cs : List Char) : Option String :=
  if leftB prev then
    match cs with
    | [] => none
    | d :: r0 =>
      if isDigitC d then
        let p1 : List Char × List Char :=
          match r0 with
          | e :: r0b => if isDigitC e then ([d, e], r0b) else ([d], r0)
          | [] => ([d], [])
        let p2 : List Char × List Char :=
          match p1.2 with
          | ':' :: a :: b :: r1b =>
            if isDigitC a && isDigitC b then ([':', a, b], r1b) else ([], p1.2)
          | _ => ([], p1.2)
        let ws := p2.2.takeWhile isWsC
        let r3 := p2.2.drop ws.length
        match r3 with
        | x :: m :: r4 =>
          if (Char.toLower x = 'a' ∨ Char.toLower x = 'p') ∧ Char.toLower m = 'm' ∧
              rightB r4 = true then
            some (String.mk (p1.1 ++ p2.1 ++ ws ++ [x, m]))
          else none
        | _ => none
      else none
  else none

/-- First am/pm time match of the text (`timeMatch[1]`). -/
def findTime (s : String) : Option String := scanFind timeStep none s.data

/-- `timeMatch ? timeMatch[1] : 'Not specified'`. -/
def timeOrNS (s : String) : String := (findTime s).getD "Not specified"

/-- The capture `([A-Z][a-z]+(?:\s+[A-Z][a-z]+)?)` at the head of the input:
one capitalized word, optionally followed by whitespace and a second
capitalized word.  Returns the captured characters and the rest. -/
def nameCap (cs : List Char) : Option (List Char × List Char) :=
  match cs with
  | [] => none
  | c :: r0 =>
    if isUpperA c then
      let ls := r0.takeWhile isLowerA
      let r1 := r0.drop ls.length
      if ls.isEmpty then none
      else
        let ws2 := r1.takeWhile isWsC
        let r2 := r1.drop ws2.length
        if ws2.isEmpty then some (c :: ls, r1)
        else
          match r2 with
          | c2 :: r3 =>
            if isUpperA c2 then
              let ls2 := r3.takeWhile isLowerA
              if ls2.isEmpty then some (c :: ls, r1)
              else some (c :: ls ++ ws2 ++ c2 :: ls2, r3.drop ls2.length)
            else some (c :: ls, r1)
          | [] => some (c :: ls, r1)
    else none

/-- `/\bwith\s+([A-Z][a-z]+(?:\s+[A-Z][a-z]+)?)/` (case-sensitive) at one
position, returning the captured name. -/
def withStep (prev : Option Char) (cs : List Char) : Option String :=
  if leftB prev then
    match dropLitCS ("with".data) cs with
    | some r0 =>
      let ws := r0.takeWhile isWsC
      if ws.isEmpty then none
      else
        match nameCap (r0.drop ws.length) with
        | some (g, _) => some (String.mk g)
        | none => none
    | none => none
  else none

/-- `text.match(/\bwith\s+([A-Z][a-z]+(?:\s+[A-Z][a-z]+)?)/)`, group 1. -/
def findWith (s : String) : Option String := scanFind withStep none s.data

/-- `/\band\s+([A-Z][a-z]+(?:\s+[A-Z][a-z]+)?)/` (case-sensitive) at one
position. -/
def andStep (prev : Option Char) (cs : List Char) : Option String :=
  if leftB prev then
    match dropLitCS ("and".data) cs with
    | some r0 =>
      let ws := r0.takeWhile isWsC
      if ws.isEmpty then none
      else
        match nameCap (r0.drop ws.length) with
        | some (g, _) => some (String.mk g)
        | none => none
    | none => none
  else none

/-- `text.match(/\band\s+([A-Z][a-z]+(?:\s+[A-Z][a-z]+)?)/)`, group 1. -/
def findAnd (s : String) : Option String := scanFind andStep none s.data

/-- `/\b[A-Z][a-z]+\b/` at one position, for the global name scan; returns
the match, the last consumed character and the rest. -/
def nameStep (prev : Option Char) (cs : List Char) : Option (String × Option Char × List Char) :=
  if leftB prev then
    match cs with
    | [] => none
    | c :: r0 =>
      if isUpperA c then
        let ls := r0.takeWhile isLowerA
        let r1 := r0.drop ls.length
        if ls.isEmpty then none
        else if rightB r1 then some (String.mk (c :: ls), some (ls.getLastD c), r1)
        else none
      else none
  else none

/-- `text.match(/\b[A-Z][a-z]+\b/g)`. -/
def nameMatches (s : String) : List String := scanAll nameStep s

/-- The month alternation of the date pattern, in source order. -/
def monthNames : List String :=
  ["january", "february", "march", "april", "may", "june", "july", "august",
   "september", "october", "november", "december"]

/-- The ordinal suffixes of the date pattern, in source order. -/
def ordSuffixes : List String := ["st", "nd", "rd", "th"]

/-- `/\b(\d{1,2}(?:st|nd|rd|th)?\s+(?:of\s+)?(january|...|december))\b/i` at
one position, returning the captured group verbatim.  Taking the optional
pieces greedily is faithful: skipping a present ordinal suffix leaves a
letter where `\s+` is required, and skipping a present `of\s+` leaves `of`
where no month name can start. -/
def dateOrdStep (prev : Option Char) (cs : List Char) : Option String :=
  if leftB prev then
    match cs with
    | [] => none
    | d :: r0 =>
      if isDigitC d then
        let p1 : List Char × List Char :=
          match r0 with
          | e :: r0b => if isDigitC e then ([d, e], r0b) else ([d], r0)
          | [] => ([d], [])
        let p2 : List Char × List Char :=
          match firstLitCI ordSuffixes p1.2 with
          | some (m, r) => (m.data, r)
          | none => ([], p1.2)
        let ws1 := p2.2.takeWhile isWsC
        let r3 := p2.2.drop ws1.length
        if ws1.isEmpty then none
        else
          let p3 : List Char × List Char :=
            match dropLitCI ("of".data) r3 with
            | some ra =>
              let ws2 := ra.takeWhile isWsC
              if ws2.isEmpty then ([], r3)
              else (r3.take 2 ++ ws2, ra.drop ws2.length)
            | none => ([], r3)
          match firstLitCI monthNames p3.2 with
          | some (m, r5) =>
            if rightB r5 then some (String.mk (p1.1 ++ p2.1 ++ ws1 ++ p3.1 ++ m.data))
            else none
          | none => none
      else none
  else none

/-- First `<day><ordinal?> of <month>` match of the text (`dateMatch[1]`). -/
def findDateOrdinal (s : String) : Option String := scanFind dateOrdStep none s.data

/-- `\btomorrow\b` preceded by at least one `.`-matched character (the lazy
`.+?` of `/\b(meeting|appointment|call)\b.+?\btomorrow\b/i`): walk forward
over dot characters and report whether `tomorrow` with both boundaries is
reached. -/
def tomAfter : Char → List Char → Bool
  | _, [] => false
  | prevc, c :: rest =>
    if !isWordC prevc &&
        (match dropLitCI ("tomorrow".data) (c :: rest) with
         | some r => rightB r
         | none => false) then true
    else if isDotC c then tomAfter c rest
    else false

/-- `/\b(meeting|appointment|call)\b.+?\btomorrow\b/i` at one position. -/
def kwTomStep (prev : Option Char) (cs : List Char) : Option Unit :=
  if leftB prev then
    match firstLitCI ["meeting", "appointment", "call"] cs with
    | some (kw, r) =>
      if rightB r then
        match kw.data.getLast? with
        | some k => if tomAfter k r then some () else none
        | none => none
      else none
    | none => none
  else none

/-- Whether the text matches `/\b(meeting|appointment|call)\b.+?\btomorrow\b/i`. -/
def keywordTomorrowFound (s : String) : Bool := (scanFind kwTomStep none s.data).isSome

/-- The terminator alternation `(?:\.|,|\band\b|$)` at the current position,
where `prevc` is the character just consumed by the lazy `.+?`.  Returns the
terminator characters, the last character of the whole match and the rest. -/
def termAt (prevc : Char) (u : List Char) : Option (List Char × Option Char × List Char) :=
  match u with
  | [] => some ([], some prevc, [])
  | '.' :: r => some (['.'], some '.', r)
  | ',' :: r => some ([','], some ',', r)
  | c1 :: c2 :: c3 :: r =>
    if !isWordC prevc && Char.toLower c1 = 'a' && Char.toLower c2 = 'n' &&
        Char.toLower c3 = 'd' && rightB r then
      some ([c1, c2, c3], some c3, r)
    else none
  | _ => none

/-- The lazy `.+?(?:\.|,|\band\b|$)` after its first character has been
consumed: at each position first try the terminator, otherwise consume one
more dot character.  Returns the consumed characters (terminator included),
the last character of the match and the rest. -/
def dotScan : Char → List Char → Option (List Char × Option Char × List Char)
  | prevc, [] => termAt prevc []
  | prevc, c :: rest =>
    match termAt prevc (c :: rest) with
    | some (t, p, r) => some (t, p, r)
    | none =>
      if isDotC c then
        match dotScan c rest with
        | some (consumed, p, r) => some (c :: consumed, p, r)
        | none => none
      else none

/-- The action-item keyword alternation, in source order. -/
def actionKeywords : List String := ["need to", "have to", "must", "should"]

/-- `/\b(need to|have to|must|should) ([a-z]+\s.+?)(?:\.|,|\band\b|$)/gi` at
one position: keyword, a literal space, a maximal ASCII-letter run, one
whitespace character, then the lazy tail.  The greedy letter run needs no
backtracking because a shorter run leaves a letter where `\s` is required. -/
def needToStep (prev : Option Char) (cs : List Char) : Option (String × Option Char × List Char) :=
  if leftB prev then
    match firstLitCI actionKeywords cs with
    | some (kw, r0) =>
      match r0 with
      | ' ' :: r1 =>
        let ls := r1.takeWhile isLetterA
        let r2 := r1.drop ls.length
        if ls.isEmpty then none
        else
          match r2 with
          | w :: r3 =>
            if isWsC w then
              match r3 with
              | c :: r4 =>
                if isDotC c then
                  match dotScan c r4 with
                  | some (consumed, p, r) =>
                    some (String.mk (kw.data ++ ' ' :: (ls ++ w :: c :: consumed)), p, r)
                  | none => none
                else none
              | [] => none
            else none
          | [] => none
      | _ => none
    | none => none
  else none

/-- All matches of the `need to`-family pattern (`needToMatches`). -/
def needToMatches (s : String) : List String := scanAll needToStep s

/-- `/\bbring\s.+?(?:\.|,|\band\b|$)/gi` at one position. -/
def bringStep (prev : Option Char) (cs : List Char) : Option (String × Option Char × List Char) :=
  if leftB prev then
    match dropLitCI ("bring".data) cs with
    | some r0 =>
      match r0 with
      | w :: r1 =>
        if isWsC w then
          match r1 with
          | c :: r2 =>
            if isDotC c then
              match dotScan c r2 with
              | some (consumed, p, r) =>
                some (String.mk (cs.take 5 ++ w :: c :: consumed), p, r)
              | none => none
            else none
          | [] => none
        else none
      | [] => none
    | none => none
  else none

/-- All matches of the `bring` pattern (`bringMatches`). -/
def bringMatches (s : String) : List String := scanAll bringStep s

/-! ### Data model -/

/-- `{ date, time, participants }` of an `AnalysisResult`. -/
structure MeetingDetails where
  date : String
  time : String
  participants : List String
  deriving DecidableEq, Repr

/-- `{ title, date, time }`. -/
structure CalendarEvent where
  title : String
  date : String
  time : String
  deriving DecidableEq, Repr

/-- `{ task, deadline }`. -/
structure ActionItem where
  task : String
  deadline : String
  deriving DecidableEq, Repr

/-- The canonical result shape produced by the AI path and the fallback. -/
structure AnalysisResult where
  actionItems : List ActionItem
  meetingDetails : MeetingDetails
  keyPoints : List String
  calendarEvents : List CalendarEvent
  summary : String
  deriving DecidableEq, Repr

/-- A calendar date, month and day 1-based as displayed by
`getMonth() + 1` / `getDate()` / `getFullYear()`. -/
structure SimpleDate where
  year : Nat
  month : Nat
  day : Nat
  deriving DecidableEq, Repr

/-- Gregorian leap year, as implemented by the JavaScript `Date` rollover. -/
def isLeap (y : Nat) : Bool := (y % 4 = 0 && y % 100 ≠ 0) || y % 400 = 0

/-- Days in a month of the Gregorian calendar. -/
def daysInMonth (y m : Nat) : Nat :=
  if m = 2 then (if isLeap y then 29 else 28)
  else if m = 4 ∨ m = 6 ∨ m = 9 ∨ m = 11 then 30
  else 31

/-- `tomorrow.setDate(tomorrow.getDate() + 1)`: the next calendar day. -/
def nextDay (d : SimpleDate) : SimpleDate :=
  if d.day < daysInMonth d.year d.month then { d with day := d.day + 1 }
  else if d.month < 12 then { year := d.year, month := d.month + 1, day := 1 }
  else { year := d.year + 1, month := 1, day := 1 }

/-- `` `${getMonth() + 1}/${getDate()}/${getFullYear()}` `` — M/D/YYYY. -/
def formatDate (d : SimpleDate) : String :=
  toString d.month ++ "/" ++ toString d.day ++ "/" ++ toString d.year

/-! ### Heuristic extractors (`extract*Manually` in `VoiceRecorder.jsx`) -/

/-- The date branch of `extractMeetingDetailsManually`: `tomorrow`, then
`today`, then a weekday, then a day-of-month pattern, else the sentinel.
`now` is the current date (`new Date()`). -/
def dateOf (now : SimpleDate) (text : String) : String :=
  if tomorrowFound text then formatDate (nextDay now)
  else if todayFound text then formatDate now
  else
    match findDay text with
    | some d => capitalizeFirst d
    | none => (findDateOrdinal text).getD "Not specified"

/-- The time branch of `extractMeetingDetailsManually`. -/
def timeOf (text : String) : String := (findTime text).getD "Not specified"

/-- The fixed stoplist of capitalized words that are not treated as names. -/
def commonWords : List String :=
  ["I", "Monday", "Tuesday", "Wednesday", "Thursday", "Friday", "Saturday", "Sunday",
   "January", "February", "March", "April", "May", "June", "July", "August",
   "September", "October", "November", "December", "The", "A", "An"]

/-- The participants accumulated before the sentinel fallback: the `with`
capture, then the `and` capture, then every global `[A-Z][a-z]+` match that
is neither a stop word nor already collected. -/
def participantsBase (text : String) : List String :=
  (nameMatches text).foldl
    (fun acc n => if n ∈ commonWords ∨ n ∈ acc then acc else acc ++ [n])
    ((findWith text).toList ++ (findAnd text).toList)

/-- The participants branch of `extractMeetingDetailsManually`. -/
def participantsOf (text : String) : List String :=
  if participantsBase text = [] then ["Unspecified participants"]
  else participantsBase text

/-- `extractMeetingDetailsManually(text)` from `VoiceRecorder.jsx`. -/
def extractMeetingDetailsManually (now : SimpleDate) (text : String) : MeetingDetails :=
  { date := dateOf now text, time := timeOf text, participants := participantsOf text }

/-- `extractCalendarEventsManually(text)`: one `Meeting`/`Tomorrow` event if
the `(meeting|appointment|call)...tomorrow` pattern matches, plus one event
for the first weekday match, each with the first am/pm time or the
sentinel. -/
def extractCalendarEventsManually (text : String) : List CalendarEvent :=
  (if keywordTomorrowFound text then
    [{ title := "Meeting", date := "Tomorrow", time := timeOrNS text }]
   else []) ++
  (match findDay text with
   | some d => [{ title := "Meeting", date := capitalizeFirst d, time := timeOrNS text }]
   | none => [])

/-- `extractActionItemsManually(text)`: one trimmed action item per
`need to`-family match, then one per `bring` match, all with the
`Not specified` deadline. -/
def extractActionItemsManually (text : String) : List ActionItem :=
  (needToMatches text).map (fun m => { task := trimStr m, deadline := "Not specified" }) ++
  (bringMatches text).map (fun m => { task := trimStr m, deadline := "Not specified" })

/-! ### The AI extraction client (`extractInformation` in the Gemini module) -/

/-- `meetingDetails` of a parsed Gemini payload; `""` stands for an absent or
otherwise falsy string field, `none` for a `participants` that is not an
array. -/
structure RawMd where
  date : String
  time : String
  participants : Option (List String)
  deriving DecidableEq, Repr

/-- A Gemini payload that `JSON.parse` accepted; `none` models a field that
is absent or not an array (`Array.isArray` fails), `""` a falsy string. -/
structure ParsedPayload where
  actionItems : Option (List ActionItem)
  meetingDetails : Option RawMd
  keyPoints : Option (List String)
  calendarEvents : Option (List CalendarEvent)
  summary : String
  deriving DecidableEq, Repr

/-- How the awaited model call resolves: the call threw, the payload was not
parseable JSON, or it parsed to `p`. -/
inductive AIResponse where
  | modelFailure : AIResponse
  | unparseable : AIResponse
  | parsed : ParsedPayload → AIResponse
  deriving DecidableEq, Repr

/-- `s || d` for the string fields of the validation step. -/
def orDefault (s d : String) : String := if s = "" then d else s

/-- `DEFAULT_RESPONSE` of the Gemini module. -/
def defaultResponse : AnalysisResult :=
  { actionItems := [],
    meetingDetails :=
      { date := "Not specified", time := "Not specified",
        participants := ["Unspecified participants"] },
    keyPoints := ["No key points detected"],
    calendarEvents := [],
    summary := "No summary available" }

/-- The response-validation step of `extractInformation`: each field is
checked and replaced by its sentinel when missing or of the wrong shape.
Note that a present but *empty* `participants` array passes `Array.isArray`
and is kept as is. -/
def validateResponse (p : ParsedPayload) : AnalysisResult :=
  { actionItems := p.actionItems.getD [],
    meetingDetails :=
      { date :=
          orDefault (match p.meetingDetails with | some m => m.date | none => "")
            "Not specified",
        time :=
          orDefault (match p.meetingDetails with | some m => m.time | none => "")
            "Not specified",
        participants :=
          match p.meetingDetails with
          | some m => m.participants.getD ["Unspecified participants"]
          | none => ["Unspecified participants"] },
    keyPoints :=
      match p.keyPoints with
      | some l => if 0 < l.length then l else ["No key points detected"]
      | none => ["No key points detected"],
    calendarEvents := p.calendarEvents.getD [],
    summary := orDefault p.summary "No summary available" }

/-- `extractInformation(text)`: an empty or whitespace-only input throws
before the model is called; otherwise a model error or an unparseable
payload yields `DEFAULT_RESPONSE`, and a parsed payload is validated.  The
model call itself is external; its outcome is the `resp` parameter. -/
def extractInformation (text : String) (resp : AIResponse) : Except String AnalysisResult :=
  if trimStr text = "" then Except.error "No text provided for analysis"
  else
    Except.ok
      (match resp with
       | AIResponse.modelFailure => defaultResponse
       | AIResponse.unparseable => defaultResponse
       | AIResponse.parsed p => validateResponse p)

/-! ### Reconciliation (`processTranscript` in `VoiceRecorder.jsx`) -/

/-- Step 1: when the AI produced no calendar events, substitute the manual
extraction if it is nonempty. -/
def step1Events (ai : AnalysisResult) (text : String) : List CalendarEvent :=
  if ai.calendarEvents.isEmpty then
    (if (extractCalendarEventsManually text).isEmpty then ai.calendarEvents
     else extractCalendarEventsManually text)
  else ai.calendarEvents

/-- First calendar-event pass over the manually extracted meeting details:
a truthy event date/time replaces a sentinel meeting date/time. -/
def applyEvent1 (evs : List CalendarEvent) (md : MeetingDetails) : MeetingDetails :=
  match evs with
  | [] => md
  | e :: _ =>
    { date := if e.date ≠ "" ∧ md.date = "Not specified" then e.date else md.date,
      time := if e.time ≠ "" ∧ md.time = "Not specified" then e.time else md.time,
      participants := md.participants }

/-- The merge of manual meeting details with the AI meeting details: per
field, the manual value wins unless it is the sentinel. -/
def mergeMd (md : MeetingDetails) (ai : AnalysisResult) : MeetingDetails :=
  { date :=
      if md.date ≠ "Not specified" then md.date
      else orDefault ai.meetingDetails.date "Not specified",
    time :=
      if md.time ≠ "Not specified" then md.time
      else orDefault ai.meetingDetails.time "Not specified",
    participants :=
      match md.participants.head? with
      | some h =>
        if h ≠ "Unspecified participants" then md.participants
        else ai.meetingDetails.participants
      | none => md.participants }

/-- Final calendar-event pass over the merged meeting details (the source
additionally treats a falsy merged value like the sentinel here). -/
def applyEvent2 (evs : List CalendarEvent) (md : MeetingDetails) : MeetingDetails :=
  match evs with
  | [] => md
  | e :: _ =>
    { date :=
        if e.date ≠ "" ∧ (md.date = "Not specified" ∨ md.date = "") then e.date
        else md.date,
      time :=
        if e.time ≠ "" ∧ (md.time = "Not specified" ∨ md.time = "") then e.time
        else md.time,
      participants := md.participants }

/-- Last step: when the AI produced no action items, substitute the manual
extraction if it is nonempty. -/
def step6Actions (ai : AnalysisResult) (text : String) : List ActionItem :=
  if ai.actionItems.isEmpty then
    (if (extractActionItemsManually text).isEmpty then ai.actionItems
     else extractActionItemsManually text)
  else ai.actionItems

/-- The reconciliation block of `processTranscript`, applied to whatever
`extractInformation` resolved to (including `DEFAULT_RESPONSE` after an AI
failure) and the formatted transcript text. -/
def reconcile (now : SimpleDate) (ai : AnalysisResult) (text : String) : AnalysisResult :=
  { actionItems := step6Actions ai text,
    meetingDetails :=
      applyEvent2 (step1Events ai text)
        (mergeMd (applyEvent1 (step1Events ai text) (extractMeetingDetailsManually now text)) ai),
    keyPoints := ai.keyPoints,
    calendarEvents := step1Events ai text,
    summary := ai.summary }

/-! ### `cleanTranscript` -/

/-- `text.split(/[.,!?;]\s+/)` separator head test. -/
def isPunctC (c : Char) : Bool := c = '.' || c = ',' || c = '!' || c = '?' || c = ';'

/-- Splitter for `split(/[.,!?;]\s+/)`: a separator is one punctuation
character immediately followed by a maximal nonempty whitespace run; both
are removed.  A punctuation character not followed by whitespace stays in
the current piece.  `cur` is the current piece reversed; `inSep` records
that the whitespace run of a separator is being consumed; a boundary is
recognised on seeing a whitespace character whose predecessor (the head of
`cur`) is a punctuation character. -/
def splitPW : List Char → List Char → Bool → List (List Char)
  | [], cur, _ => [cur.reverse]
  | c :: rest, cur, true =>
    if isWsC c then splitPW rest cur true
    else splitPW rest [c] false
  | c :: rest, cur, false =>
    if isWsC c then
      match cur with
      | p :: cur2 =>
        if isPunctC p then cur2.reverse :: splitPW rest [] true
        else splitPW rest (c :: cur) false
      | [] => splitPW rest (c :: cur) false
    else splitPW rest (c :: cur) false

/-- `text.split(/[.,!?;]\s+/)`. -/
def splitPunctWs (cs : List Char) : List (List Char) := splitPW cs [] false

/-- The near-duplicate test of `cleanTranscript`: the candidate is a
duplicate of an accepted phrase when more than 80 percent of its lower-cased
words (and at least one) occur among the accepted phrase's lower-cased
words. -/
def isNearDuplicate (accepted : List String) (cand : String) : Bool :=
  accepted.any fun ex =>
    let exWords := tokens (lowerStr ex)
    let nw := tokens (lowerStr cand)
    let matching := (nw.filter (fun w => w ∈ exWords)).length
    decide (0 < matching ∧ 4 * nw.length < 5 * matching)

/-- The phrase-selection loop of `cleanTranscript`. -/
def uniquePhrasesOf (text : String) : List String :=
  ((splitPunctWs text.data).map String.mk).foldl
    (fun acc ph =>
      if trimStr ph = "" then acc
      else if isNearDuplicate acc (trimStr ph) then acc
      else acc ++ [trimStr ph])
    []

/-- JavaScript `array.join('. ')`. -/
def joinDotSp : List String → String
  | [] => ""
  | [w] => w
  | w :: x :: xs => w ++ ". " ++ joinDotSp (x :: xs)

/-- `replace(/\s+/g, ' ')`: collapse each maximal whitespace run to one
space (`inWs` records whether the previous character was whitespace). -/
def collapseWs : List Char → Bool → List Char
  | [], _ => []
  | c :: rest, inWs =>
    if isWsC c then
      (if inWs then collapseWs rest true else ' ' :: collapseWs rest true)
    else c :: collapseWs rest false

/-- `endsWith('.')`. -/
def endsWithDot (s : String) : Bool := decide (s.data.getLast? = some '.')

/-- The join-normalise part of `cleanTranscript`. -/
def cleanCore (text : String) : String :=
  trimStr (String.mk (collapseWs (joinDotSp (uniquePhrasesOf text)).data false))

/-- `cleanTranscript(text)` from `VoiceRecorder.jsx`. -/
def cleanTranscript (text : String) : String :=
  if text = "" then ""
  else
    if cleanCore text ≠ "" ∧ endsWithDot (cleanCore text) = false then cleanCore text ++ "."
    else cleanCore text

/-! ### Helper lemmas: tokens, joins and the dedupe loop -/

theorem strData_append (s t : String) : (s ++ t).data = s.data ++ t.data := rfl

theorem strMk_data (s : String) : String.mk s.data = s := rfl

theorem joinSp_data : ∀ l : List String, (joinSp l).data = joinChars (l.map String.data)
  | [] => rfl
  | [w] => rfl
  | w :: x :: xs => by
    simp only [joinSp, joinChars, List.map_cons, strData_append, joinSp_data (x :: xs)]
    simp [List.append_assoc]

theorem wordsAux_elems : ∀ (cs cur : List Char), (∀ c ∈ cur, isWsC c = false) →
    ∀ w ∈ wordsAux cs cur, w ≠ [] ∧ ∀ c ∈ w, isWsC c = false := by
  intro cs
  induction cs with
  | nil =>
    intro cur hcur w hw
    simp only [wordsAux] at hw
    by_cases h : cur.isEmpty
    · simp [h] at hw
    · simp [h] at hw
      subst hw
      refine ⟨by simpa [List.isEmpty_iff] using h, ?_⟩
      intro c hc
      exact hcur c (List.mem_reverse.mp hc)
  | cons c rest ih =>
    intro cur hcur w hw
    simp only [wordsAux] at hw
    by_cases hws : isWsC c
    · simp only [hws, if_true] at hw
      by_cases hemp : cur.isEmpty
      · simp only [hemp, if_true] at hw
        exact ih [] (by simp) w hw
      · simp only [hemp, if_false] at hw
        rcases List.mem_cons.mp hw with h | h
        · subst h
          refine ⟨by simpa [List.isEmpty_iff] using hemp, ?_⟩
          intro d hd
          exact hcur d (List.mem_reverse.mp hd)
        · exact ih [] (by simp) w h
    · simp only [hws, if_false] at hw
      refine ih (c :: cur) ?_ w hw
      intro d hd
      rcases List.mem_cons.mp hd with h | h
      · subst h
        simpa using hws
      · exact hcur d h

theorem wordsAux_chunk : ∀ (w cs cur : List Char), (∀ c ∈ w, isWsC c = false) →
    wordsAux (w ++ cs) cur = wordsAux cs (w.reverse ++ cur) := by
  intro w
  induction w with
  | nil => intro cs cur _; simp
  | cons c w ih =>
    intro cs cur hw
    have hc : isWsC c = false := hw c (by simp)
    simp only [List.cons_append, wordsAux, hc, if_false, Bool.false_eq_true]
    rw [show (w.append cs) = w ++ cs from rfl, ih cs (c :: cur) (fun d hd => hw d (by simp [hd]))]
    simp [List.append_assoc]

theorem wordsAux_joinChars : ∀ L : List (List Char),
    (∀ w ∈ L, w ≠ [] ∧ ∀ c ∈ w, isWsC c = false) → wordsAux (joinChars L) [] = L := by
  intro L
  induction L with
  | nil => intro _; simp [joinChars, wordsAux]
  | cons w t ih =>
    intro h
    cases t with
    | nil =>
      have hw := h w (by simp)
      show wordsAux (joinChars [w]) [] = [w]
      simp only [joinChars]
      rw [show (w : List Char) = w ++ [] by simp, wordsAux_chunk w [] [] hw.2]
      simp only [wordsAux, List.append_nil]
      have : (w.reverse).isEmpty = false := by
        simp [List.isEmpty_iff, hw.1]
      simp [this]
    | cons x xs =>
      have hw := h w (by simp)
      show wordsAux (joinChars (w :: x :: xs)) [] = w :: x :: xs
      simp only [joinChars]
      rw [wordsAux_chunk w (' ' :: joinChars (x :: xs)) [] hw.2]
      have hsp : isWsC ' ' = true := by decide
      have hne : (w.reverse).isEmpty = false := by
        simp [List.isEmpty_iff, hw.1]
      simp only [wordsAux, hsp, if_true, List.append_nil, hne, if_false, Bool.false_eq_true,
        List.reverse_reverse]
      rw [ih (fun v hv => h v (by simp [hv]))]

theorem tokens_elems (s : String) : ∀ w ∈ tokens s, w.data ≠ [] ∧ ∀ c ∈ w.data, isWsC c = false := by
  intro w hw
  simp only [tokens, List.mem_map] at hw
  obtain ⟨w0, hw0, rfl⟩ := hw
  exact wordsAux_elems s.data [] (by simp) w0 hw0

theorem tokens_joinSp (l : List String)
    (h : ∀ w ∈ l, w.data ≠ [] ∧ ∀ c ∈ w.data, isWsC c = false) : tokens (joinSp l) = l := by
  unfold tokens
  rw [joinSp_data, wordsAux_joinChars (l.map String.data)]
  · rw [List.map_map, show String.mk ∘ String.data = id from funext strMk_data, List.map_id]
  · intro w hw
    simp only [List.mem_map] at hw
    obtain ⟨w0, hw0, rfl⟩ := hw
    exact h w0 hw0

theorem scanLens_seen_subset : ∀ (suffix : List String) (lens : List Nat) (seen : List String),
    ∀ p ∈ (scanLens suffix lens seen).2,
      p ∈ seen ∨ ∃ len ∈ lens, len ≤ suffix.length ∧ p = phraseOf suffix len := by
  intro suffix lens
  induction lens with
  | nil => intro seen p hp; exact Or.inl hp
  | cons len rest ih =>
    intro seen p hp
    simp only [scanLens] at hp
    by_cases hlen : len ≤ suffix.length
    · simp only [hlen, if_true] at hp
      by_cases hmem : phraseOf suffix len ∈ seen
      · simp only [hmem, if_true] at hp
        exact Or.inl hp
      · simp only [hmem, if_false] at hp
        rcases ih (phraseOf suffix len :: seen) p hp with h | ⟨l2, hl2, hle, hp2⟩
        · rcases List.mem_cons.mp h with h | h
          · exact Or.inr ⟨len, by simp, hlen, h⟩
          · exact Or.inl h
        · exact Or.inr ⟨l2, by simp [hl2], hle, hp2⟩
    · simp only [hlen, if_false] at hp
      exact Or.inl hp

theorem scanLens_no_hit : ∀ (suffix : List String) (lens : List Nat) (seen : List String),
    lens.Nodup →
    (∀ len ∈ lens, len ≤ suffix.length → phraseOf suffix len ∉ seen) →
    (∀ len ∈ lens, ∀ lenB ∈ lens, len ≠ lenB → len ≤ suffix.length → lenB ≤ suffix.length →
      phraseOf suffix len ≠ phraseOf suffix lenB) →
    (scanLens suffix lens seen).1 = false := by
  intro suffix lens
  induction lens with
  | nil => intro seen _ _ _; rfl
  | cons len rest ih =>
    intro seen hnd hni hdist
    simp only [scanLens]
    by_cases hlen : len ≤ suffix.length
    · simp only [hlen, if_true]
      have hmem : phraseOf suffix len ∉ seen := hni len (by simp) hlen
      simp only [hmem, if_false]
      refine ih (phraseOf suffix len :: seen) (List.Nodup.of_cons hnd) ?_ ?_
      · intro l2 hl2 hle2
        intro hcontra
        rcases List.mem_cons.mp hcontra with h | h
        · have hne : l2 ≠ len := by
            intro hEq
            subst hEq
            exact (List.nodup_cons.mp hnd).1 hl2
          exact hdist l2 (by simp [hl2]) len (by simp) hne hle2 hlen h
        · exact hni l2 (by simp [hl2]) hle2 h
      · intro l2 hl2 l3 hl3 hne h2 h3
        exact hdist l2 (by simp [hl2]) l3 (by simp [hl3]) hne h2 h3
    · simp [hlen]

theorem dedupeGo_sublist : ∀ (ws seen : List String), List.Sublist (dedupeGo ws seen) ws := by
  intro ws
  induction ws with
  | nil => intro seen; simp [dedupeGo]
  | cons w rest ih =>
    intro seen
    simp only [dedupeGo]
    by_cases h : (scanLens (w :: rest) [3, 4, 5, 6, 7] seen).1
    · simp only [h, if_true]
      exact List.Sublist.cons w (ih _)
    · simp only [h, if_false]
      exact List.Sublist.cons₂ w (ih _)

theorem drop_cons_of_lt : ∀ (l : List α) (i : Nat), i < l.length →
    ∃ a, l.drop i = a :: l.drop (i + 1) := by
  intro l
  induction l with
  | nil => intro i hi; simp at hi
  | cons x t ih =>
    intro i hi
    cases i with
    | zero => exact ⟨x, by simp⟩
    | succ j =>
      obtain ⟨a, ha⟩ := ih j (by simpa using hi)
      exact ⟨a, by simpa using ha⟩

theorem mem_lens_range {len : Nat} (h : len ∈ [3, 4, 5, 6, 7]) : 3 ≤ len ∧ len ≤ 7 := by
  simp only [List.mem_cons, List.not_mem_nil, or_false] at h
  rcases h with h | h | h | h | h <;> omega

/-- When no 3-to-7-token phrase repeats, the suppression loop keeps every
word: from any position `i` with a seen set whose phrases all come from
windows strictly before `i`, the loop returns the remaining words
unchanged. -/
theorem dedupeGo_noRep (words : List String) (hdist : PhrasesDistinct words) :
    ∀ (k i : Nat) (seen : List String), i + k = words.length →
    (∀ p ∈ seen, ∃ j len, j < i ∧ 3 ≤ len ∧ len ≤ 7 ∧ j + len ≤ words.length ∧
      p = phraseOf (words.drop j) len) →
    dedupeGo (words.drop i) seen = words.drop i := by
  intro k
  induction k with
  | zero =>
    intro i seen hik _
    have : i = words.length := by omega
    subst this
    simp [dedupeGo, List.drop_length]
  | succ k ih =>
    intro i seen hik hseen
    have hi : i < words.length := by omega
    obtain ⟨w, hw⟩ := drop_cons_of_lt words i hi
    have hlensuffix : (words.drop i).length = words.length - i := by simp
    have hfalse : (scanLens (words.drop i) [3, 4, 5, 6, 7] seen).1 = false := by
      refine scanLens_no_hit (words.drop i) [3, 4, 5, 6, 7] seen (by decide) ?_ ?_
      · intro len hlenmem hlenle hmem
        have hlr : 3 ≤ len ∧ len ≤ 7 := mem_lens_range hlenmem
        obtain ⟨j, lenB, hj, h3B, h7B, hjB, hp⟩ := hseen _ hmem
        refine hdist i hi j (by omega) len (by omega) lenB (by omega)
          hlr.1 (by omega) h3B hjB (Or.inl (by omega)) ?_
        rw [← hp]
      · intro len hlmem lenB hlBmem hne hlle hlBle
        have hlr : 3 ≤ len ∧ len ≤ 7 := mem_lens_range hlmem
        have hlrB : 3 ≤ lenB ∧ lenB ≤ 7 := mem_lens_range hlBmem
        exact hdist i hi i hi len (by omega) lenB (by omega)
          hlr.1 (by omega) hlrB.1 (by omega) (Or.inr hne)
    have hrec : dedupeGo (words.drop (i + 1)) ((scanLens (words.drop i) [3, 4, 5, 6, 7] seen).2)
        = words.drop (i + 1) := by
      refine ih (i + 1) _ (by omega) ?_
      intro p hp
      rcases scanLens_seen_subset (words.drop i) [3, 4, 5, 6, 7] seen p hp with h | ⟨len, hlm, hle, hp2⟩
      · obtain ⟨j, len, hj, h3, h7, hjl, hpj⟩ := hseen p h
        exact ⟨j, len, by omega, h3, h7, hjl, hpj⟩
      · have hlr : 3 ≤ len ∧ len ≤ 7 := mem_lens_range hlm
        exact ⟨i, len, by omega, hlr.1, hlr.2, by omega, hp2⟩
    conv_lhs => rw [hw]
    simp only [dedupeGo]
    rw [← hw, hfalse]
    simp only [Bool.false_eq_true, if_false]
    rw [hrec]
    exact hw.symm

theorem phrasesDistinctB_sound (words : List String) (h : phrasesDistinctB words = true) :
    PhrasesDistinct words := by
  intro i hi j hj len hlen lenB hlenB h1 h2 h3 h4 h5
  simp only [phrasesDistinctB, List.all_eq_true, List.mem_range] at h
  exact (decide_eq_true_eq.mp (h i hi j hj len hlen lenB hlenB)) h1 h2 h3 h4 h5

/-! ### Claim theorems -/

/-- C3: for every input string, the whitespace-separated tokens of
`removeRepeatedPhrases text` form a subsequence of the tokens of `text`:
tokens are only omitted, never inserted, and their relative order is
preserved. -/
theorem c3_dedupe_tokens_sublist (s : String) :
    List.Sublist (tokens (removeRepeatedPhrases s)) (tokens s) := by
  by_cases h : (tokens s).length < 5
  · simp only [removeRepeatedPhrases, h, if_true]
    exact List.Sublist.refl _
  · simp only [removeRepeatedPhrases, h, if_false]
    have hsub : List.Sublist (dedupeGo (tokens s) []) (tokens s) := dedupeGo_sublist _ _
    rw [tokens_joinSp]
    · exact hsub
    · intro w hw
      exact tokens_elems s w (hsub.subset hw)

/-- C8: on a string whose token sequence contains no repeated lower-cased
phrase of 3 to 7 consecutive tokens, `removeRepeatedPhrases` is idempotent:
applying it twice gives the same result as applying it once. -/
theorem c8_dedupe_idempotent (s : String) (h : PhrasesDistinct (tokens s)) :
    removeRepeatedPhrases (removeRepeatedPhrases s) = removeRepeatedPhrases s := by
  by_cases h5 : (tokens s).length < 5
  · have hid : removeRepeatedPhrases s = s := by
      simp only [removeRepeatedPhrases, h5, if_true]
    rw [hid]
    exact hid
  · have hded : dedupeGo (tokens s) [] = tokens s := by
      have := dedupeGo_noRep (tokens s) h (tokens s).length 0 [] (by omega)
        (by intro p hp; simp at hp)
      simpa using this
    have hrp : removeRepeatedPhrases s = joinSp (tokens s) := by
      simp only [removeRepeatedPhrases, h5, if_false]
      rw [hded]
    rw [hrp]
    have htok : tokens (joinSp (tokens s)) = tokens s := tokens_joinSp _ (tokens_elems s)
    simp only [removeRepeatedPhrases, htok, h5, if_false]
    rw [hded]

theorem c8_dedupe_idempotent_witness :
    PhrasesDistinct (tokens "a b c d e") ∧
    removeRepeatedPhrases (removeRepeatedPhrases "a b c d e") =
      removeRepeatedPhrases "a b c d e" :=
  ⟨phrasesDistinctB_sound _ (by decide),
   c8_dedupe_idempotent "a b c d e" (phrasesDistinctB_sound _ (by decide))⟩

theorem endsWithDot_append (s : String) : endsWithDot (s ++ ".") = true := by
  simp only [endsWithDot, strData_append, decide_eq_true_eq]
  exact List.getLast?_concat _

/-- C7: `cleanTranscript` of the empty string is the empty string, and every
non-empty output of `cleanTranscript` ends with a period (appended when the
joined accepted phrases do not already end with one). -/
theorem c7_cleanTranscript_period (s : String) :
    cleanTranscript "" = "" ∧ (cleanTranscript s ≠ "" → endsWithDot (cleanTranscript s) = true) := by
  refine ⟨rfl, ?_⟩
  intro hne
  by_cases hs : s = ""
  · subst hs
    exact absurd rfl hne
  · simp only [cleanTranscript, hs, if_false] at hne ⊢
    by_cases hcond : cleanCore s ≠ "" ∧ endsWithDot (cleanCore s) = false
    · rw [if_pos hcond] at hne ⊢
      exact endsWithDot_append _
    · rw [if_neg hcond] at hne ⊢
      cases hEB : endsWithDot (cleanCore s) with
      | true => rfl
      | false => exact absurd ⟨hne, hEB⟩ hcond

theorem c7_cleanTranscript_period_witness :
    cleanTranscript "hello" ≠ "" ∧ endsWithDot (cleanTranscript "hello") = true :=
  ⟨by decide, (c7_cleanTranscript_period "hello").2 (by decide)⟩

/-- C4: on the input `"I have a meeting tomorrow at 3pm with John"`, the
heuristic meeting-details extractor returns time `"3pm"`, date equal to the
current date plus one day formatted `M/D/YYYY`, and a participants list
containing `"John"`, for every current date. -/
theorem c4_meeting_details_example (now : SimpleDate) :
    (extractMeetingDetailsManually now "I have a meeting tomorrow at 3pm with John").time =
      "3pm" ∧
    (extractMeetingDetailsManually now "I have a meeting tomorrow at 3pm with John").date =
      formatDate (nextDay now) ∧
    "John" ∈
      (extractMeetingDetailsManually now "I have a meeting tomorrow at 3pm with John").participants := by
  refine ⟨?_, ?_, ?_⟩
  · show timeOf "I have a meeting tomorrow at 3pm with John" = "3pm"
    decide
  · show dateOf now "I have a meeting tomorrow at 3pm with John" = formatDate (nextDay now)
    simp only [dateOf,
      show tomorrowFound "I have a meeting tomorrow at 3pm with John" = true from by decide,
      if_true]
  · show "John" ∈ participantsOf "I have a meeting tomorrow at 3pm with John"
    decide

/-- C5: every action item produced by the heuristic extractor has the
`Not specified` deadline; there is exactly one item per `need to`-family
match plus one per `bring` match (each match contributing its trimmed text
as the task); and on `"need to submit the report"` the extractor yields
exactly one item whose task is that very string. -/
theorem c5_action_items (text : String) :
    (∀ a ∈ extractActionItemsManually text, a.deadline = "Not specified") ∧
    (extractActionItemsManually text).length =
      (needToMatches text).length + (bringMatches text).length ∧
    (∀ m ∈ needToMatches text,
      ({ task := trimStr m, deadline := "Not specified" } : ActionItem) ∈
        extractActionItemsManually text) ∧
    extractActionItemsManually "need to submit the report" =
      [{ task := "need to submit the report", deadline := "Not specified" }] := by
  refine ⟨?_, ?_, ?_, by decide⟩
  · intro a ha
    simp only [extractActionItemsManually, List.mem_append, List.mem_map] at ha
    rcases ha with ⟨m, _, rfl⟩ | ⟨m, _, rfl⟩ <;> rfl
  · simp [extractActionItemsManually]
  · intro m hm
    simp only [extractActionItemsManually, List.mem_append, List.mem_map]
    exact Or.inl ⟨m, hm, rfl⟩

theorem c5_action_items_witness :
    (({ task := "need to submit the report", deadline := "Not specified" } : ActionItem) ∈
      extractActionItemsManually "need to submit the report") ∧
    ({ task := "need to submit the report", deadline := "Not specified" } : ActionItem).deadline =
      "Not specified" :=
  ⟨by decide, (c5_action_items "need to submit the report").1 _ (by decide)⟩

/-- C6: the heuristic calendar fallback yields at most two events: exactly
one `Tomorrow` event when the `(meeting|appointment|call)...tomorrow` test
fires and exactly one weekday event when a weekday occurs, each titled
`Meeting`, dated `Tomorrow` respectively the capitalized weekday, and timed
with the first am/pm match (or the sentinel); both tests contribute
independently. -/
theorem c6_calendar_events (text : String) :
    (extractCalendarEventsManually text).length =
      ((if keywordTomorrowFound text then 1 else 0) +
        (if (findDay text).isSome then 1 else 0)) ∧
    (extractCalendarEventsManually text).length ≤ 2 ∧
    (∀ e ∈ extractCalendarEventsManually text,
      e.title = "Meeting" ∧ e.time = timeOrNS text ∧
      (e.date = "Tomorrow" ∨ ∃ d, findDay text = some d ∧ e.date = capitalizeFirst d)) ∧
    extractCalendarEventsManually "meeting tomorrow on friday at 3pm" =
      [{ title := "Meeting", date := "Tomorrow", time := "3pm" },
       { title := "Meeting", date := "Friday", time := "3pm" }] := by
  refine ⟨?_, ?_, ?_, by decide⟩
  · by_cases hk : keywordTomorrowFound text <;> cases hd : findDay text <;>
      simp [extractCalendarEventsManually, hk, hd]
  · by_cases hk : keywordTomorrowFound text <;> cases hd : findDay text <;>
      simp [extractCalendarEventsManually, hk, hd]
  · intro e he
    simp only [extractCalendarEventsManually, List.mem_append] at he
    rcases he with he | he
    · by_cases hk : keywordTomorrowFound text
      · simp only [hk, if_true, List.mem_singleton] at he
        subst he
        exact ⟨rfl, rfl, Or.inl rfl⟩
      · simp [hk] at he
    · cases hd : findDay text with
      | none => rw [hd] at he; simp at he
      | some d =>
        rw [hd] at he
        simp only [List.mem_singleton] at he
        subst he
        exact ⟨rfl, rfl, Or.inr ⟨d, rfl, rfl⟩⟩

theorem c6_calendar_events_witness :
    (({ title := "Meeting", date := "Tomorrow", time := "3pm" } : CalendarEvent) ∈
      extractCalendarEventsManually "meeting tomorrow on friday at 3pm") ∧
    (({ title := "Meeting", date := "Tomorrow", time := "3pm" } : CalendarEvent).title =
        "Meeting" ∧
      ({ title := "Meeting", date := "Tomorrow", time := "3pm" } : CalendarEvent).time =
        timeOrNS "meeting tomorrow on friday at 3pm" ∧
      (({ title := "Meeting", date := "Tomorrow", time := "3pm" } : CalendarEvent).date =
          "Tomorrow" ∨
        ∃ d, findDay "meeting tomorrow on friday at 3pm" = some d ∧
          ({ title := "Meeting", date := "Tomorrow", time := "3pm" } : CalendarEvent).date =
            capitalizeFirst d)) :=
  ⟨by decide,
   (c6_calendar_events "meeting tomorrow on friday at 3pm").2.2.1 _ (by decide)⟩

/-- C10: `extractInformation` throws `No text provided for analysis` exactly
on empty or whitespace-only input; on any other input it never throws,
returning the validated result, and the default payload whenever the model
call fails or its payload is unparseable. -/
theorem c10_extract_information (text : String) (resp : AIResponse) :
    (trimStr text = "" →
      extractInformation text resp = Except.error "No text provided for analysis") ∧
    (trimStr text ≠ "" → ∃ r, extractInformation text resp = Except.ok r) ∧
    (trimStr text ≠ "" →
      extractInformation text AIResponse.modelFailure = Except.ok defaultResponse ∧
      extractInformation text AIResponse.unparseable = Except.ok defaultResponse) := by
  refine ⟨?_, ?_, ?_⟩
  · intro h
    simp [extractInformation, h]
  · intro h
    simp only [extractInformation, h, if_false]
    exact ⟨_, rfl⟩
  · intro h
    simp [extractInformation, h]

theorem c10_extract_information_witness :
    (trimStr "" = "" ∧
      extractInformation "" AIResponse.modelFailure =
        Except.error "No text provided for analysis") ∧
    (trimStr "hi" ≠ "" ∧
      extractInformation "hi" AIResponse.modelFailure = Except.ok defaultResponse) :=
  ⟨⟨by decide, (c10_extract_information "" AIResponse.modelFailure).1 (by decide)⟩,
   ⟨by decide, ((c10_extract_information "hi" AIResponse.modelFailure).2.2 (by decide)).1⟩⟩

/-- C9 (code bug): the heuristic extractor's participants list is indeed
never empty, but reconciliation does not preserve non-emptiness of the
final participants: a parsed AI payload whose `participants` is a
present-but-empty array passes the `Array.isArray` validation unchanged
(`[] || default` keeps `[]` since an empty array is truthy), and when the
heuristics find no names the merge selects that empty list, violating the
"participants is never empty" invariant. -/
theorem c9_participants_bug :
    (∀ (now : SimpleDate) (text : String),
      ((extractMeetingDetailsManually now text).participants).isEmpty = false) ∧
    (validateResponse
        { actionItems := some [],
          meetingDetails := some
            { date := "Not specified", time := "Not specified", participants := some [] },
          keyPoints := some ["key point"], calendarEvents := some [],
          summary := "summary" }).meetingDetails.participants = [] ∧
    ((reconcile ⟨2026, 10, 12⟩
        (validateResponse
          { actionItems := some [],
            meetingDetails := some
              { date := "Not specified", time := "Not specified", participants := some [] },
            keyPoints := some ["key point"], calendarEvents := some [],
            summary := "summary" })
        "meeting tomorrow").meetingDetails.participants).isEmpty = true := by
  refine ⟨?_, by decide, by decide⟩
  intro now text
  show (participantsOf text).isEmpty = false
  unfold participantsOf
  by_cases h : participantsBase text = []
  · rw [if_pos h]
    rfl
  · rw [if_neg h]
    cases hc : participantsBase text with
    | nil => exact absurd hc h
    | cons a t => rfl

/-- C1 (counterexample): when the AI call fails, `extractInformation`
resolves to the fixed default payload, but the pipeline then reconciles
that payload like any other instead of returning it as-is: on the
transcript `"meeting tomorrow"` the heuristic calendar fallback replaces
the empty `calendarEvents`, so the final result differs from the default
payload. -/
theorem c1_default_passthrough_cex :
    extractInformation "meeting tomorrow" AIResponse.modelFailure =
      Except.ok defaultResponse ∧
    decide (reconcile ⟨2026, 10, 12⟩ defaultResponse "meeting tomorrow" = defaultResponse) =
      false ∧
    (reconcile ⟨2026, 10, 12⟩ defaultResponse "meeting tomorrow").calendarEvents =
      [{ title := "Meeting", date := "Tomorrow", time := "Not specified" }] :=
  ⟨rfl, by decide, by decide⟩

/-- C1 (amended): the default payload produced for an unusable AI result is
not returned as-is; it flows through the same reconciliation, so the final
result equals the default payload exactly when the heuristic extractors
contribute nothing: no calendar events, no action items and all-sentinel
meeting details. -/
theorem c1_default_reconciled (now : SimpleDate) (text : String)
    (h1 : extractCalendarEventsManually text = [])
    (h2 : extractActionItemsManually text = [])
    (h3 : extractMeetingDetailsManually now text =
      { date := "Not specified", time := "Not specified",
        participants := ["Unspecified participants"] }) :
    reconcile now defaultResponse text = defaultResponse := by
  simp [reconcile, step1Events, step6Actions, applyEvent1, applyEvent2, mergeMd, orDefault,
    defaultResponse, h1, h2, h3]

theorem c1_default_reconciled_witness :
    extractCalendarEventsManually "" = [] ∧
    extractActionItemsManually "" = [] ∧
    extractMeetingDetailsManually ⟨2026, 10, 12⟩ "" =
      { date := "Not specified", time := "Not specified",
        participants := ["Unspecified participants"] } ∧
    reconcile ⟨2026, 10, 12⟩ defaultResponse "" = defaultResponse :=
  ⟨by decide, by decide, by decide,
   c1_default_reconciled ⟨2026, 10, 12⟩ "" (by decide) (by decide) (by decide)⟩

/-- C2 (counterexample): with an AI result that has no calendar events and
sentinel meeting details, the transcript `"meeting tomorrow at 3pm"` makes
the heuristic fallback produce the single concrete event
`Meeting/Tomorrow/3pm`, yet the final meeting date is the computed
`M/D/YYYY` date (`10/13/2026` for the fixed current date), not the event's
`"Tomorrow"`: the heuristic meeting date takes precedence over the first
calendar event's date. -/
theorem c2_event_date_cex :
    defaultResponse.calendarEvents = [] ∧
    defaultResponse.meetingDetails.date = "Not specified" ∧
    defaultResponse.meetingDetails.time = "Not specified" ∧
    extractCalendarEventsManually "meeting tomorrow at 3pm" =
      [{ title := "Meeting", date := "Tomorrow", time := "3pm" }] ∧
    (reconcile ⟨2026, 10, 12⟩ defaultResponse "meeting tomorrow at 3pm").meetingDetails.date =
      "10/13/2026" ∧
    decide
      ((reconcile ⟨2026, 10, 12⟩ defaultResponse "meeting tomorrow at 3pm").meetingDetails.date =
        "Tomorrow") = false :=
  ⟨rfl, rfl, rfl, by decide, by decide, by decide⟩

/-- C2 (amended): when the AI result has no calendar events and sentinel
meeting date/time, and the heuristic fallback produces a first event with a
concrete (non-sentinel, non-empty) date and time, the final meeting
date/time equal that event's date/time provided the heuristic
meeting-details date (resp. time) is itself the sentinel or already equal
to the event's value; otherwise the heuristic value prevails, as the
counterexample shows. -/
theorem c2_event_to_meeting_details (now : SimpleDate) (ai : AnalysisResult) (text : String)
    (e : CalendarEvent) (rest : List CalendarEvent)
    (hai : ai.calendarEvents = [])
    (hman : extractCalendarEventsManually text = e :: rest)
    (haid : ai.meetingDetails.date = "Not specified")
    (hait : ai.meetingDetails.time = "Not specified")
    (hed1 : e.date ≠ "") (hed2 : e.date ≠ "Not specified")
    (het1 : e.time ≠ "") (het2 : e.time ≠ "Not specified")
    (hmd : (extractMeetingDetailsManually now text).date = "Not specified" ∨
      (extractMeetingDetailsManually now text).date = e.date)
    (hmt : (extractMeetingDetailsManually now text).time = "Not specified" ∨
      (extractMeetingDetailsManually now text).time = e.time) :
    (reconcile now ai text).meetingDetails.date = e.date ∧
    (reconcile now ai text).meetingDetails.time = e.time := by
  have hev : step1Events ai text = e :: rest := by
    simp [step1Events, hai, hman]
  set md0 := extractMeetingDetailsManually now text with hmd0
  have h1d : (applyEvent1 (e :: rest) md0).date = e.date := by
    simp only [applyEvent1]
    rcases hmd with h | h
    · rw [if_pos ⟨hed1, h⟩]
    · rw [if_neg (fun hc => hed2 (h.symm.trans hc.2))]
      exact h
  have h1t : (applyEvent1 (e :: rest) md0).time = e.time := by
    simp only [applyEvent1]
    rcases hmt with h | h
    · rw [if_pos ⟨het1, h⟩]
    · rw [if_neg (fun hc => het2 (h.symm.trans hc.2))]
      exact h
  have h2d : (mergeMd (applyEvent1 (e :: rest) md0) ai).date = e.date := by
    simp only [mergeMd, h1d]
    rw [if_pos hed2]
  have h2t : (mergeMd (applyEvent1 (e :: rest) md0) ai).time = e.time := by
    simp only [mergeMd, h1t]
    rw [if_pos het2]
  constructor
  · show (reconcile now ai text).meetingDetails.date = e.date
    simp only [reconcile, hev, applyEvent2]
    by_cases hc : e.date ≠ "" ∧
        ((mergeMd (applyEvent1 (e :: rest) md0) ai).date = "Not specified" ∨
          (mergeMd (applyEvent1 (e :: rest) md0) ai).date = "")
    · rw [if_pos hc]
    · rw [if_neg hc]
      exact h2d
  · show (reconcile now ai text).meetingDetails.time = e.time
    simp only [reconcile, hev, applyEvent2]
    by_cases hc : e.time ≠ "" ∧
        ((mergeMd (applyEvent1 (e :: rest) md0) ai).time = "Not specified" ∨
          (mergeMd (applyEvent1 (e :: rest) md0) ai).time = "")
    · rw [if_pos hc]
    · rw [if_neg hc]
      exact h2t

theorem c2_event_to_meeting_details_witness :
    (reconcile ⟨2026, 10, 12⟩ defaultResponse "Friday at 3pm").meetingDetails.date = "Friday" ∧
    (reconcile ⟨2026, 10, 12⟩ defaultResponse "Friday at 3pm").meetingDetails.time = "3pm" :=
  c2_event_to_meeting_details ⟨2026, 10, 12⟩ defaultResponse "Friday at 3pm"
    { title := "Meeting", date := "Friday", time := "3pm" } [] rfl (by decide) rfl rfl
    (by decide) (by decide) (by decide) (by decide) (by decide) (by decide)
